import Mathlib

/-!
Verification of the JmDictMod backend search service.

The source is a small Express server (`src/server.js`, plus earlier variants of
the same file under `src/unnamed/`).  The core logic — query parsing, entry
matching, frequency sorting, result grouping and response caching — is pure
string/list manipulation, embedded here as executable Lean definitions.

Conventions of the embedding:
* JS strings are modelled as Lean `String`; the JS operations used by the code
  (`startsWith`, `substring`, `trim`, `split`, `includes`, `toLowerCase`) are
  re-implemented over `String.data` character lists so that every definition
  reduces inside the kernel.  JS `trim` is modelled on the ASCII whitespace
  characters, and `toLowerCase` on ASCII letters; no query or entry in the
  claims depends on the exotic cases.
* JS numbers appearing in the code are integers (`parseInt` results, tag ids,
  frequency ranks); they are modelled as `Int`/`Nat`.  `parseInt` is modelled
  with its ECMAScript behaviour: skip leading whitespace, optional sign,
  optional `0x`/`0X` hex prefix, then the maximal digit prefix; `NaN` becomes
  `none`.
* A possibly-`undefined` field is an `Option`; JS truthiness tests on strings,
  numbers and lookups are modelled by explicit `truthy…` helpers.
* The JS session cache (`Map`) is an association list threaded through
  `searchStep` explicitly; `Map.set` keeps the original position of an
  existing key, which `setC` mirrors.
-/

namespace JmDict

/-! ## Character-list models of the JS string operations -/

/-- Boolean list-prefix test (`needle` a prefix of `hay`). -/
def isPrefixB : List Char → List Char → Bool
  | [], _ => true
  | _ :: _, [] => false
  | a :: as, b :: bs => a == b && isPrefixB as bs

/-- Boolean list-infix test, scanning left to right, used to model
JS `String.prototype.includes`. -/
def isInfixB (needle : List Char) : List Char → Bool
  | [] => isPrefixB needle []
  | c :: cs => isPrefixB needle (c :: cs) || isInfixB needle cs

/-- JS `hay.includes(needle)`. -/
def strIncludes (hay needle : String) : Bool := isInfixB needle.data hay.data

/-- The whitespace characters relevant to JS `trim` for the queries at hand. -/
def jsIsSpace (c : Char) : Bool := c == ' ' || c == '\t' || c == '\n' || c == '\r'

/-- JS `s.trim()`. -/
def jsTrim (s : String) : String :=
  ⟨((s.data.dropWhile jsIsSpace).reverse.dropWhile jsIsSpace).reverse⟩

/-- JS `s.startsWith(p)`. -/
def jsStartsWith (s p : String) : Bool := isPrefixB p.data s.data

/-- JS `s.substring(n)` (drop the first `n` characters). -/
def jsDropChars (s : String) (n : Nat) : String := ⟨s.data.drop n⟩

/-- Fuel-driven worker for JS `String.prototype.split` with a non-empty
separator `c0 :: sep`: scan left to right, cutting at each (non-overlapping)
occurrence of the separator.  The fuel is always instantiated with the length
of the scanned list, which one character per step cannot exhaust; the `0` fuel
case is unreachable from `jsSplitOnStr`. -/
def splitChAux (c0 : Char) (sep : List Char) : Nat → List Char → List (List Char)
  | _, [] => [[]]
  | 0, cs => [cs]
  | fuel + 1, c :: cs =>
    if isPrefixB (c0 :: sep) (c :: cs) then
      [] :: splitChAux c0 sep fuel (cs.drop sep.length)
    else
      match splitChAux c0 sep fuel cs with
      | [] => [[c]]
      | p :: ps => (c :: p) :: ps

/-- JS `s.split(sep)` for the non-empty separator `c0 :: sep`. -/
def jsSplitOnStr (s : String) (c0 : Char) (sep : List Char) : List String :=
  (splitChAux c0 sep s.data.length s.data).map (fun l => ⟨l⟩)

/-- Lower-case an ASCII letter (model of JS `toLowerCase` on the data used). -/
def asciiLower (c : Char) : Char :=
  if 'A' ≤ c && c ≤ 'Z' then Char.ofNat (c.toNat + 32) else c

/-- JS `s.toLowerCase()` (ASCII model). -/
def jsToLower (s : String) : String := ⟨s.data.map asciiLower⟩

/-- Value of a decimal digit character. -/
def decDigitVal (c : Char) : Nat := c.toNat - 48

/-- Hexadecimal digit test. -/
def isHexDigitB (c : Char) : Bool :=
  c.isDigit || ('a' ≤ c && c ≤ 'f') || ('A' ≤ c && c ≤ 'F')

/-- Value of a hexadecimal digit character. -/
def hexDigitVal (c : Char) : Nat :=
  if c.isDigit then c.toNat - 48
  else if 'a' ≤ c && c ≤ 'f' then c.toNat - 87
  else c.toNat - 55

/-- Accumulate digit values in the given base. -/
def digitsToNat (base : Nat) (f : Char → Nat) (cs : List Char) : Nat :=
  cs.foldl (fun acc c => acc * base + f c) 0

/-- Magnitude part of ECMAScript `parseInt` (radix unspecified): an optional
`0x`/`0X` prefix switches to hexadecimal, otherwise the maximal leading
decimal-digit prefix is taken; no digits at all gives `none` (JS `NaN`). -/
def jsParseIntMag : List Char → Option Nat
  | '0' :: 'x' :: rest =>
    let ds := rest.takeWhile isHexDigitB
    if ds.isEmpty then none else some (digitsToNat 16 hexDigitVal ds)
  | '0' :: 'X' :: rest =>
    let ds := rest.takeWhile isHexDigitB
    if ds.isEmpty then none else some (digitsToNat 16 hexDigitVal ds)
  | cs =>
    let ds := cs.takeWhile Char.isDigit
    if ds.isEmpty then none else some (digitsToNat 10 decDigitVal ds)

/-- ECMAScript `parseInt(s)`: leading whitespace is skipped, an optional sign
is honoured, and the maximal leading numeric prefix is converted; `none`
models `NaN`. -/
def jsParseInt (s : String) : Option Int :=
  match s.data.dropWhile jsIsSpace with
  | '-' :: rest => (jsParseIntMag rest).map (fun n => -(Int.ofNat n))
  | '+' :: rest => (jsParseIntMag rest).map Int.ofNat
  | cs => (jsParseIntMag cs).map Int.ofNat

/-! ## Data model of `src/server.js` -/

/-- A dictionary entry as stored in `jmdictmod.json` and consumed by
`src/server.js`: `t` term, `r` reading, `m` meanings, `f` furigana payload,
`l` comma-separated tag-id list, `o` frequency rank (possibly absent),
`g` group id.  The `f` and `g` fields are carried through untouched. -/
structure Entry where
  t : String
  r : String
  m : List String
  f : String
  l : String
  o : Option Int
  g : Int
deriving DecidableEq, Repr

/-- The parsed form of a raw query, mirroring the four mutable locals
`searchTerm`, `tagFilter`, `frequencyFilter`, `tagOnlySearch` of
`src/server.js` after the parsing block (lines 73–99). -/
structure ParsedQuery where
  searchTerm : String
  tagFilter : Option String
  frequencyFilter : Option Int
  tagOnlySearch : Bool
deriving DecidableEq, Repr

/-- Outcome of the parsing block: either the parsed query or the 400 error
message produced for an invalid frequency value. -/
inductive ParseResult where
  | ok (pq : ParsedQuery)
  | error (msg : String)
deriving DecidableEq, Repr

/-- The query-parsing block of `src/server.js` (lines 73–99): `#frq` prefix,
then `#` prefix, then an embedded `" #"` (JS `split` cuts at every occurrence
and the code reads `parts[0]` and `parts[1]`), else a plain term search. -/
def parseQuery (query : String) : ParseResult :=
  if jsStartsWith query "#frq" then
    match jsParseInt (jsTrim (jsDropChars query 4)) with
    | none => .error "Invalid frequency value"
    | some n => .ok ⟨query, none, some n, true⟩
  else if jsStartsWith query "#" then
    .ok ⟨query, some (jsTrim (jsDropChars query 1)), none, true⟩
  else if strIncludes query " #" then
    let parts := jsSplitOnStr query ' ' ['#']
    let searchTerm := jsTrim (parts.headD "")
    let p1 := (parts.get? 1).getD ""
    if jsStartsWith p1 "frq" then
      match jsParseInt (jsTrim (jsDropChars p1 3)) with
      | none => .error "Invalid frequency value"
      | some n => .ok ⟨searchTerm, none, some n, false⟩
    else
      .ok ⟨searchTerm, some (jsTrim p1), none, false⟩
  else
    .ok ⟨query, none, none, false⟩

/-- The tag resolver (`tagIdMap` of `src/server.js`): an association list from
tag symbols to their numeric `tagbank.json` ids. -/
def lookupTag (tm : List (String × Int)) (s : String) : Option Int :=
  match tm with
  | [] => none
  | (k, v) :: rest => if k == s then some v else lookupTag rest s

/-- JS truthiness of `tagIdMap[tagFilter]`: `undefined` and `0` are falsy. -/
def truthyTagId : Option Int → Bool
  | none => false
  | some n => !(n == 0)

/-- The tag test of `src/server.js` (lines 109–110 and 127–128):
`entry.l.split(",").some(tagId => tagIdMap[tagFilter] && tagId === String(tagIdMap[tagFilter]))`. -/
def tagCheck (tm : List (String × Int)) (tf : String) (e : Entry) : Bool :=
  (jsSplitOnStr e.l ',' []).any (fun tagId =>
    truthyTagId (lookupTag tm tf) && tagId == toString ((lookupTag tm tf).getD 0))

/-- JS falsiness of `frequencyFilter` (`!frequencyFilter`): `null` and `0`. -/
def freqFalsy : Option Int → Bool
  | none => true
  | some n => n == 0

/-- The reading half of the `both`-mode test,
`entry.r === reading` where `reading` is `searchTerm.split(",")[1]` and may
be `undefined` (in which case the strict comparison with a string is
`false`). -/
def readingMatches (segs : List String) (e : Entry) : Bool :=
  match segs.get? 1 with
  | some rd => e.r == rd
  | none => false

/-- JS truthiness of `tagFilter`: non-`null` and non-empty. -/
def truthyTagFilter : Option String → Bool
  | none => false
  | some s => !(s == "")

/-- The entry predicate of `src/server.js` (the `dictionaryData.filter`
callback, lines 101–131): frequency match, tag-only match, or a term match in
the requested mode, optionally intersected with a tag filter. -/
def entryMatches (tm : List (String × Int)) (mode : Option String)
    (pq : ParsedQuery) (e : Entry) : Bool :=
  let termMatches :=
    if pq.frequencyFilter.isSome then
      match e.o, pq.frequencyFilter with
      | some v, some fv => v == fv
      | _, _ => false
    else if pq.tagOnlySearch then
      tagCheck tm (pq.tagFilter.getD "") e
    else
      match mode with
      | some "exact" => e.t == pq.searchTerm || e.r == pq.searchTerm
      | some "any" => strIncludes e.t pq.searchTerm || strIncludes e.r pq.searchTerm
      | some "both" =>
        e.t == (jsSplitOnStr pq.searchTerm ',' []).headD "" &&
          readingMatches (jsSplitOnStr pq.searchTerm ',' []) e
      | some "en_exact" => e.m.any (fun mg => jsToLower mg == jsToLower pq.searchTerm)
      | some "en_any" => e.m.any (fun mg => strIncludes (jsToLower mg) (jsToLower pq.searchTerm))
      | _ => false
  if !pq.tagOnlySearch && freqFalsy pq.frequencyFilter && truthyTagFilter pq.tagFilter then
    termMatches && tagCheck tm (pq.tagFilter.getD "") e
  else
    termMatches

/-- Sort key of `results.sort((a, b) => (parseInt(b.o) || 0) - (parseInt(a.o) || 0))`:
a missing or unparsable frequency coerces to `0`. -/
def freqKey (e : Entry) : Int := e.o.getD 0

/-- Insert `x` after every element whose key is at least `k x` — one step of a
stable descending sort. -/
def insertByDesc {α : Type} (k : α → Int) (x : α) : List α → List α
  | [] => [x]
  | y :: ys => if k x ≤ k y then y :: insertByDesc k x ys else x :: y :: ys

/-- Stable descending sort by an integer key, modelling JS
`Array.prototype.sort` with the subtraction comparator (stable per ES2019). -/
def sortByDesc {α : Type} (k : α → Int) (l : List α) : List α :=
  l.foldl (fun acc x => insertByDesc k x acc) []

/-- The search response body `{ totalResults, results }`; `formattedResults`
maps each entry to an object with the same seven fields, i.e. the identity on
our `Entry`. -/
structure Response where
  totalResults : Nat
  results : List Entry
deriving DecidableEq, Repr

/-- HTTP outcome of one `/api/search` request: a JSON response or a 400 error
body. -/
inductive SearchOut where
  | ok (r : Response)
  | err (msg : String)
deriving DecidableEq, Repr

/-- `getCacheKey` of `src/server.js`: `` `${query}_${mode || 'default'}` ``
(an absent or empty mode is falsy and becomes `"default"`). -/
def getCacheKey (query : String) (mode : Option String) : String :=
  query ++ "_" ++ (match mode with
    | some m => if m == "" then "default" else m
    | none => "default")

/-- `cache.get`, on the association-list model of the session `Map`. -/
def lookupC (c : List (String × Response)) (k : String) : Option Response :=
  match c with
  | [] => none
  | (k2, r) :: rest => if k2 == k then some r else lookupC rest k

/-- `cache.set`: overwrite in place if the key exists, else append. -/
def setC (c : List (String × Response)) (k : String) (r : Response) :
    List (String × Response) :=
  match c with
  | [] => [(k, r)]
  | (k2, r2) :: rest => if k2 == k then (k2, r) :: rest else (k2, r2) :: setC rest k r

/-- Observable effect of one `/api/search` request: the HTTP outcome, the
cache afterwards, whether the response was served from the cache (`hit`), and
whether the matcher (the `dictionaryData.filter` / sort pipeline) ran. -/
structure StepOut where
  out : SearchOut
  cache : List (String × Response)
  hit : Bool
  ran : Bool
deriving DecidableEq, Repr

/-- The matching/sorting pipeline of `src/server.js` on a cache miss:
`dictionaryData.filter(...)`, the frequency sort, and the
`{ totalResults, results }` body. -/
def computeResponse (dict : List Entry) (tm : List (String × Int))
    (mode : Option String) (pq : ParsedQuery) : Response :=
  let rs := sortByDesc freqKey (dict.filter (entryMatches tm mode pq))
  ⟨rs.length, rs⟩

/-- One `/api/search` request of `src/server.js` (lines 60–155): reject an
empty query, consult the cache, parse, filter, sort, respond and store. -/
def searchStep (dict : List Entry) (tm : List (String × Int))
    (cache : List (String × Response)) (query : String) (mode : Option String) :
    StepOut :=
  if query = "" then
    ⟨.err "Query parameter is required", cache, false, false⟩
  else
    match lookupC cache (getCacheKey query mode) with
    | some r => ⟨.ok r, cache, true, false⟩
    | none =>
      match parseQuery query with
      | .error e => ⟨.err e, cache, false, false⟩
      | .ok pq =>
        ⟨.ok (computeResponse dict tm mode pq),
         setC cache (getCacheKey query mode) (computeResponse dict tm mode pq),
         false, true⟩

/-! ## Data model of the grouping variant

The grouped-response variant of the server (the second program listing inside
`src/server.js`, and `src/unnamed/part_002`) stores entries as `term_bank`
rows indexed `entry[0] … entry[7]` and aggregates matched rows into one record
per `` `${entry[0]}_${entry[1]}` `` key. -/

/-- A `term_bank` row as consumed by the grouping variant: `entry[0]` term,
`entry[1]` reading, `entry[2]` space-separated POS tags, `entry[4]` frequency
score, `entry[5]` meanings, `entry[6]` sequence id, `entry[7]` space-separated
extra tags.  An absent/empty `entry[2]`/`entry[7]` is modelled by `""`
(falsy in JS). -/
structure TermEntry where
  term : String
  reading : String
  pos : String
  score : Option Int
  meanings : List String
  seq : Int
  extra : String
deriving DecidableEq, Repr

/-- A resolved tag: symbol plus description. -/
structure TagDesc where
  tag : String
  description : String
deriving DecidableEq, Repr

/-- `tagData` lookup: tag symbol to description. -/
def lookupTagData (td : List (String × String)) (s : String) : Option String :=
  match td with
  | [] => none
  | (k, v) :: rest => if k == s then some v else lookupTagData rest s

/-- `getTagDescriptions(posRaw, extraRaw)`: split both raw tag strings on
spaces (an empty raw string is falsy and yields no tags) and keep the symbols
with a truthy `tagData` description, POS tags first. -/
def getTagDescriptions (td : List (String × String)) (posRaw extraRaw : String) :
    List TagDesc :=
  let keep : String → Option TagDesc := fun tag =>
    match lookupTagData td tag with
    | some d => if d == "" then none else some ⟨tag, d⟩
    | none => none
  let posTags := if posRaw == "" then [] else jsSplitOnStr posRaw ' ' []
  let extraTags := if extraRaw == "" then [] else jsSplitOnStr extraRaw ' ' []
  posTags.filterMap keep ++ extraTags.filterMap keep

/-- One record of `furigana.json`: `{ text, reading, furigana }` (the furigana
payload is kept abstract as a string). -/
structure FuriEntry where
  text : String
  reading : String
  furigana : String
deriving DecidableEq, Repr

/-- `findFurigana(term, reading)`: among the furigana records for `term`
(in load order), the payload of the first whose reading matches exactly. -/
def findFurigana (fd : List FuriEntry) (term reading : String) : Option String :=
  ((fd.filter (fun f => f.text == term)).find? (fun f => f.reading == reading)).map
    (fun f => f.furigana)

/-- One grouped response record of the grouping variant. -/
structure GroupedResult where
  term : String
  reading : String
  meanings : List String
  furigana : Option String
  tags : List TagDesc
  frequency : Option Int
deriving DecidableEq, Repr

/-- The grouping key `` `${entry[0]}_${entry[1]}` `` of an entry. -/
def groupKey (e : TermEntry) : String := e.term ++ "_" ++ e.reading

/-- The grouping key re-read off a grouped record. -/
def gKey (g : GroupedResult) : String := g.term ++ "_" ++ g.reading

/-- The record initialised on first sight of a key (meanings start empty). -/
def initGroup (td : List (String × String)) (fd : List FuriEntry)
    (e : TermEntry) : GroupedResult :=
  { term := e.term
    reading := e.reading
    meanings := []
    furigana := findFurigana fd e.term e.reading
    tags := getTagDescriptions td e.pos e.extra
    frequency := e.score }

/-- `groupedResults[termKey].meanings.push(...ms)`. -/
def pushM (ms : List String) (g : GroupedResult) : GroupedResult :=
  { g with meanings := g.meanings ++ ms }

/-- Push meanings onto the record stored under key `k` (the first — and, by
the grouping invariant, only — pair with that key). -/
def updG (k : String) (ms : List String) :
    List (String × GroupedResult) → List (String × GroupedResult)
  | [] => []
  | (k2, g) :: rest =>
    if k2 == k then (k2, pushM ms g) :: rest else (k2, g) :: updG k ms rest

/-- Does the accumulated object already have this key? -/
def hasKey (k : String) (acc : List (String × GroupedResult)) : Bool :=
  acc.any (fun p => p.1 == k)

/-- Retrieve the record stored under a key. -/
def findG (k : String) : List (String × GroupedResult) → Option GroupedResult
  | [] => none
  | (k2, g) :: rest => if k2 == k then some g else findG k rest

/-- One iteration of the `results.forEach` grouping loop: initialise the
record on first sight of the key (a JS object adds new string keys at the
end of its insertion order), then push this entry's meanings. -/
def stepG (td : List (String × String)) (fd : List FuriEntry)
    (acc : List (String × GroupedResult)) (e : TermEntry) :
    List (String × GroupedResult) :=
  if hasKey (groupKey e) acc then
    updG (groupKey e) e.meanings acc
  else
    acc ++ [(groupKey e, pushM e.meanings (initGroup td fd e))]

/-- The full `groupedResults` object after the loop, as key/record pairs. -/
def groupPairs (td : List (String × String)) (fd : List FuriEntry)
    (l : List TermEntry) : List (String × GroupedResult) :=
  l.foldl (stepG td fd) []

/-- `Object.values(groupedResults)`: the grouped records in insertion order
(every key contains `"_"`, so none is an array index and JS preserves
insertion order). -/
def groupEntries (td : List (String × String)) (fd : List FuriEntry)
    (l : List TermEntry) : List GroupedResult :=
  (groupPairs td fd l).map Prod.snd

/-! ## Spec-side definitions

These follow the wording of the specification (not the code) and exist to be
compared against the code model. -/

/-- Modelled from the spec: "parsed as an integer" read strictly — an optional
sign followed by one or more decimal digits and nothing else. -/
def isStrictIntString (s : String) : Bool :=
  let cs := match s.data with
    | '-' :: rest => rest
    | '+' :: rest => rest
    | cs => cs
  !cs.isEmpty && cs.all Char.isDigit

/-- The mode component of the cache key as the spec words it: the mode when
present (and, per JS falsiness, non-empty), else `"default"`. -/
def modeOrDefault : Option String → String
  | some s => if s == "" then "default" else s
  | none => "default"

/-- Modelled from the spec: the distinct keys of a sequence in order of first
occurrence. -/
def keyOrder (ks : List String) : List String :=
  ks.foldl (fun acc k => if acc.any (fun k2 => k2 == k) then acc else acc ++ [k]) []

/-- Modelled from the spec: the concatenation, in sequence order, of the
meanings of a sequence of entries. -/
def catMeanings (l : List TermEntry) : List String :=
  l.foldr (fun e acc => e.meanings ++ acc) []

/-- Total number of meanings in a sequence of entries. -/
def totalMeanings (l : List TermEntry) : Nat :=
  l.foldr (fun e n => e.meanings.length + n) 0

/-- Total number of meanings across grouped records. -/
def totalGroupedMeanings (l : List GroupedResult) : Nat :=
  l.foldr (fun g n => g.meanings.length + n) 0

/-- Total number of meanings across the key/record pairs of the grouping
object. -/
def totalPairMeanings (acc : List (String × GroupedResult)) : Nat :=
  acc.foldr (fun p n => p.2.meanings.length + n) 0

/-- What the grouping loop does to the record stored under key `k`, as a
function of the record before the loop: if a record existed, it receives the
meanings of every entry of `l` whose key is `k`; otherwise the record, if
any, is initialised from the first entry with key `k` and receives those same
meanings. -/
def groupSpec (td : List (String × String)) (fd : List FuriEntry)
    (l : List TermEntry) (k : String) (base : Option GroupedResult) :
    Option GroupedResult :=
  match base with
  | some g => some (pushM (catMeanings (l.filter (fun e => groupKey e == k))) g)
  | none =>
    match l.find? (fun e => groupKey e == k) with
    | none => none
    | some e0 =>
      some (pushM (catMeanings (l.filter (fun e => groupKey e == k)))
        (initGroup td fd e0))

/-! ## Concrete data used by counterexamples and witnesses -/

/-- An entry with no frequency rank whose term contains `"a"`. -/
def entryNoRank : Entry := ⟨"xa", "y", ["m1"], "", "", none, 0⟩

/-- An entry with frequency rank `0` whose term contains `"a"`. -/
def entryRankZero : Entry := ⟨"za", "w", ["m2"], "", "", some 0, 0⟩

/-- An entry tagged with tag id `1`. -/
def entryCat : Entry := ⟨"cat", "neko", ["feline"], "", "1", some 5, 0⟩

/-- An entry with term `"a"` and reading `"b"`. -/
def entryAB : Entry := ⟨"a", "b", ["x"], "", "", some 1, 0⟩

/-- An entry whose term contains an underscore. -/
def entryUnderTerm : Entry := ⟨"a_x", "y", ["mm"], "", "", some 1, 0⟩

/-- Grouping-variant row `(term, reading) = ("a_b", "c")`. -/
def tEntryCollide1 : TermEntry := ⟨"a_b", "c", "", some 1, ["m1"], 0, ""⟩

/-- Grouping-variant row `(term, reading) = ("a", "b_c")` — a different pair
whose `_`-joined key coincides with that of `tEntryCollide1`. -/
def tEntryCollide2 : TermEntry := ⟨"a", "b_c", "", some 2, ["m2"], 0, ""⟩

/-! ## Helper lemmas -/

theorem isInfixB_nil (l : List Char) : isInfixB [] l = true := by
  cases l with
  | nil => rfl
  | cons c cs => simp [isInfixB, isPrefixB]

theorem strIncludes_empty (s : String) : strIncludes s "" = true := by
  have h : ("" : String).data = [] := rfl
  unfold strIncludes
  rw [h]
  exact isInfixB_nil s.data

theorem any_const_false {α : Type} (l : List α) : (l.any fun _ => false) = false := by
  induction l with
  | nil => rfl
  | cons a l ih => simp [List.any_cons, ih]

theorem tagCheck_unknown (tm : List (String × Int)) (tf : String) (e : Entry)
    (h : lookupTag tm tf = none) : tagCheck tm tf e = false := by
  unfold tagCheck
  rw [h]
  simp only [truthyTagId, Bool.false_and]
  exact any_const_false _

theorem readingMatches_iff (segs : List String) (e : Entry) :
    readingMatches segs e = true ↔ segs.get? 1 = some e.r := by
  unfold readingMatches
  cases hseg : segs.get? 1 with
  | none => simp
  | some rd =>
    rw [beq_iff_eq]
    constructor
    · intro h
      rw [h]
    · intro h
      injection h with h2
      exact h2.symm

theorem mem_insertByDesc {α : Type} (k : α → Int) (x a : α) (l : List α) :
    a ∈ insertByDesc k x l ↔ a = x ∨ a ∈ l := by
  induction l with
  | nil => simp [insertByDesc]
  | cons y ys ih =>
    by_cases h : k x ≤ k y
    · simp only [insertByDesc, if_pos h, List.mem_cons, ih]
      tauto
    · simp only [insertByDesc, if_neg h, List.mem_cons]

theorem mem_sortAux {α : Type} (k : α → Int) (l acc : List α) (a : α) :
    a ∈ l.foldl (fun acc x => insertByDesc k x acc) acc ↔ a ∈ acc ∨ a ∈ l := by
  induction l generalizing acc with
  | nil => simp
  | cons x xs ih =>
    simp only [List.foldl_cons]
    rw [ih, mem_insertByDesc]
    simp only [List.mem_cons]
    tauto

theorem mem_sortByDesc {α : Type} (k : α → Int) (l : List α) (a : α) :
    a ∈ sortByDesc k l ↔ a ∈ l := by
  unfold sortByDesc
  rw [mem_sortAux]
  simp

theorem pairwise_insertByDesc {α : Type} (k : α → Int) (x : α) (l : List α)
    (h : l.Pairwise (fun a b => k b ≤ k a)) :
    (insertByDesc k x l).Pairwise (fun a b => k b ≤ k a) := by
  induction l with
  | nil => simp [insertByDesc]
  | cons y ys ih =>
    rw [List.pairwise_cons] at h
    obtain ⟨hy, hys⟩ := h
    by_cases hxy : k x ≤ k y
    · simp only [insertByDesc, if_pos hxy]
      rw [List.pairwise_cons]
      refine ⟨?_, ih hys⟩
      intro b hb
      rcases (mem_insertByDesc k x b ys).mp hb with rfl | hb
      · exact hxy
      · exact hy b hb
    · simp only [insertByDesc, if_neg hxy]
      rw [List.pairwise_cons]
      refine ⟨?_, ?_⟩
      · intro b hb
        rcases List.mem_cons.mp hb with rfl | hb
        · omega
        · have := hy b hb
          omega
      · rw [List.pairwise_cons]
        exact ⟨hy, hys⟩

theorem pairwise_sortAux {α : Type} (k : α → Int) (l acc : List α)
    (hacc : acc.Pairwise (fun a b => k b ≤ k a)) :
    (l.foldl (fun acc x => insertByDesc k x acc) acc).Pairwise
      (fun a b => k b ≤ k a) := by
  induction l generalizing acc with
  | nil => exact hacc
  | cons x xs ih => exact ih _ (pairwise_insertByDesc k x acc hacc)

theorem sortByDesc_pairwise {α : Type} (k : α → Int) (l : List α) :
    (sortByDesc k l).Pairwise (fun a b => k b ≤ k a) :=
  pairwise_sortAux k l [] (by simp)

theorem parse_tagFilter_freq_none (q : String) (pq : ParsedQuery)
    (h : parseQuery q = .ok pq) (ht : pq.tagFilter.isSome = true) :
    pq.frequencyFilter = none := by
  simp only [parseQuery] at h
  split at h
  · split at h
    · simp at h
    · injection h with h1
      subst h1
      simp at ht
  · split at h
    · injection h with h1
      subst h1
      rfl
    · split at h
      · split at h
        · split at h
          · simp at h
          · injection h with h1
            subst h1
            simp at ht
        · injection h with h1
          subst h1
          rfl
      · injection h with h1
        subst h1
        simp at ht

/-! ## Claim C1 -/

/-- Claim C1, counterexample: in `src/server.js` the query `"#"` parses to a
tag-only search with the empty tag filter, and matching selects no entry at
all — the response is a successful empty result, not the whole store. -/
theorem c1_counterexample :
    (searchStep [entryCat] [("noun", 1)] [] "#" none).out = .ok ⟨0, []⟩
    ∧ [entryCat] ≠ ([] : List Entry) := by decide

/-- Claim C1 (amended): a query that starts with `#` (but not `#frq`) and
whose remainder trims to the empty string parses to a tag-only search with
the empty tag filter; since the empty symbol does not resolve, matching
selects no entry and the search succeeds with an empty result set (no
error). -/
theorem c1_amended_empty_tag_matches_nothing (d : List Entry)
    (tm : List (String × Int)) (st : List (String × Response)) (q : String)
    (m : Option String)
    (h1 : jsStartsWith q "#frq" = false) (h2 : jsStartsWith q "#" = true)
    (h3 : jsTrim (jsDropChars q 1) = "")
    (h4 : lookupTag tm "" = none)
    (hmiss : lookupC st (getCacheKey q m) = none) :
    (searchStep d tm st q m).out = .ok ⟨0, []⟩ := by
  have hq : ¬ q = "" := by
    intro hq
    subst hq
    exact absurd h2 (by decide)
  have hparse : parseQuery q = .ok ⟨q, some "", none, true⟩ := by
    unfold parseQuery
    rw [h1, h2, h3]
    simp
  have hfilter : d.filter (entryMatches tm m ⟨q, some "", none, true⟩) = [] := by
    rw [List.filter_eq_nil_iff]
    intro e _
    simp only [entryMatches, Option.isSome_none, Bool.false_eq_true, if_false,
      if_true, Option.getD_some, tagCheck_unknown tm "" e h4]
    simp
  unfold searchStep
  rw [if_neg hq]
  simp only [hmiss, hparse]
  unfold computeResponse
  rw [hfilter]
  rfl

/-- Witness for `c1_amended_empty_tag_matches_nothing` at the query `"# "`. -/
theorem c1_witness :
    (searchStep [entryCat] [("noun", 1)] [] "# " none).out = .ok ⟨0, []⟩ :=
  c1_amended_empty_tag_matches_nothing [entryCat] [("noun", 1)] [] "# " none
    (by decide) (by decide) (by decide) (by decide) (by decide)

/-! ## Claim C3 -/

/-- Claim C3, counterexample: for the query `"a #b #c"`, JS `split(" #")` cuts
at every occurrence, so the tag filter is only the second segment `"b"`, not
the entire right part `"b #c"`. -/
theorem c3_counterexample :
    parseQuery "a #b #c" = .ok ⟨"a", some "b", none, false⟩
    ∧ ("b" : String) ≠ "b #c" := by decide

/-- Claim C3 (amended): a query that does not start with `#` and contains
`" #"` is split at every occurrence of `" #"`; the trimmed first segment
becomes the search term and the trimmed second segment becomes the tag filter
(or, when it starts with `frq`, the frequency filter via the integer-parse
rule); segments after the second are discarded. -/
theorem c3_amended_split_second_segment (q p0 p1 : String) (ps : List String)
    (h1 : jsStartsWith q "#frq" = false) (h2 : jsStartsWith q "#" = false)
    (h3 : strIncludes q " #" = true)
    (h4 : jsSplitOnStr q ' ' ['#'] = p0 :: p1 :: ps) :
    parseQuery q =
      (if jsStartsWith p1 "frq" then
        match jsParseInt (jsTrim (jsDropChars p1 3)) with
        | none => ParseResult.error "Invalid frequency value"
        | some n => ParseResult.ok ⟨jsTrim p0, none, some n, false⟩
      else ParseResult.ok ⟨jsTrim p0, some (jsTrim p1), none, false⟩) := by
  unfold parseQuery
  rw [h1, h2, h3, h4]
  simp

/-- Witness for `c3_amended_split_second_segment` on `"a #b #c"`. -/
theorem c3_witness :
    parseQuery "a #b #c" = ParseResult.ok ⟨"a", some "b", none, false⟩ := by
  rw [c3_amended_split_second_segment "a #b #c" "a" "b" ["c"] (by decide)
    (by decide) (by decide) (by decide)]
  decide

/-! ## Claim C5 -/

/-- Claim C5, counterexample: the remainder `"12abc"` of `"#frq12abc"` is not
an integer literal, yet parsing succeeds with frequency filter `12` — JS
`parseInt` accepts a maximal leading digit prefix, so "fails iff the
remainder does not parse as an integer" is false in the only-if direction. -/
theorem c5_counterexample :
    parseQuery "#frq12abc" = .ok ⟨"#frq12abc", none, some 12, true⟩
    ∧ isStrictIntString "12abc" = false := by decide

/-- Claim C5 (amended): a query with a frequency form — the trimmed-prefix
form `#frq…` as well as the embedded form `… #frq…` — fails with the
invalid-frequency error if and only if JS `parseInt` of the trimmed remainder
after the marker yields `NaN` (no leading integer prefix); on success the
frequency filter is `parseInt`'s value — the integer value of the maximal
leading prefix, not necessarily of the whole remainder.  The first conjunct
covers the prefix form (`q1` with remainder `rest1`), the second the embedded
form (`q2` splitting at `" #"` into `p0 :: p1 :: ps` with `p1` starting with
`frq` and remainder `rest2`). -/
theorem c5_amended_parseInt_rule (q1 rest1 q2 p0 p1 : String)
    (ps : List String) (rest2 : String)
    (h1 : jsStartsWith q1 "#frq" = true)
    (h2 : jsTrim (jsDropChars q1 4) = rest1)
    (h3 : jsStartsWith q2 "#frq" = false)
    (h4 : jsStartsWith q2 "#" = false)
    (h5 : strIncludes q2 " #" = true)
    (h6 : jsSplitOnStr q2 ' ' ['#'] = p0 :: p1 :: ps)
    (h7 : jsStartsWith p1 "frq" = true)
    (h8 : jsTrim (jsDropChars p1 3) = rest2) :
    (parseQuery q1 = (match jsParseInt rest1 with
      | none => ParseResult.error "Invalid frequency value"
      | some n => ParseResult.ok ⟨q1, none, some n, true⟩))
    ∧ (parseQuery q2 = (match jsParseInt rest2 with
      | none => ParseResult.error "Invalid frequency value"
      | some n => ParseResult.ok ⟨jsTrim p0, none, some n, false⟩)) := by
  constructor
  · unfold parseQuery
    rw [h1, h2]
    simp
  · unfold parseQuery
    rw [h3, h4, h5, h6]
    simp [h7, h8]

/-- Witness for `c5_amended_parseInt_rule` on the prefix form `"#frq 42"` and
the embedded form `"cat #frq3x"` (whose remainder `"3x"` is not an integer
literal yet parses to `3`). -/
theorem c5_witness :
    parseQuery "#frq 42" = ParseResult.ok ⟨"#frq 42", none, some 42, true⟩
    ∧ parseQuery "cat #frq3x" = ParseResult.ok ⟨"cat", none, some 3, false⟩ := by
  have h := c5_amended_parseInt_rule "#frq 42" "42" "cat #frq3x" "cat" "frq3x"
    [] "3x" (by decide) (by decide) (by decide) (by decide) (by decide)
    (by decide) (by decide) (by decide)
  constructor
  · rw [h.1]
    rfl
  · rw [h.2]
    rfl

/-! ## Claim C9 -/

/-- Claim C9: the cache key is not injective — `("a", mode "x_any")` and
`("a_x", mode "any")` both derive the key `"a_x_any"`, and after the first
pair's (empty) response is cached, a search for the second pair is served the
first pair's response instead of its own computed (non-empty) result. -/
theorem c9_cache_key_collision :
    (("a", some "x_any") : String × Option String) ≠ ("a_x", some "any")
    ∧ getCacheKey "a" (some "x_any") = getCacheKey "a_x" (some "any")
    ∧ (searchStep [entryUnderTerm] []
        (searchStep [entryUnderTerm] [] [] "a" (some "x_any")).cache
        "a_x" (some "any")).out
      = (searchStep [entryUnderTerm] [] [] "a" (some "x_any")).out
    ∧ (searchStep [entryUnderTerm] []
        (searchStep [entryUnderTerm] [] [] "a" (some "x_any")).cache
        "a_x" (some "any")).hit = true
    ∧ (searchStep [entryUnderTerm] [] [] "a_x" (some "any")).out
      ≠ (searchStep [entryUnderTerm] [] [] "a" (some "x_any")).out := by decide

/-! ## Claim C4 -/

/-- Claim C4: for any query carrying a (non-empty) tag filter whose symbol is
unknown to the tag resolver — tag-only or combined with a term search in any
mode — the search returns a successful empty result set, never an error.
(The empty tag filter is the wildcard case of the `#`-only query, not an
unknown symbol, and is treated under claim C1.) -/
theorem c4_unknown_tag_empty (d : List Entry) (tm : List (String × Int))
    (st : List (String × Response)) (q : String) (m : Option String)
    (pq : ParsedQuery) (t : String)
    (hp : parseQuery q = .ok pq) (ht : pq.tagFilter = some t) (hne : ¬ t = "")
    (hu : lookupTag tm t = none)
    (hmiss : lookupC st (getCacheKey q m) = none) :
    (searchStep d tm st q m).out = .ok ⟨0, []⟩ := by
  have hfreq : pq.frequencyFilter = none :=
    parse_tagFilter_freq_none q pq hp (by rw [ht]; rfl)
  have hq : ¬ q = "" := by
    intro hq
    subst hq
    have h0 : parseQuery "" = .ok ⟨"", none, none, false⟩ := by decide
    rw [h0] at hp
    injection hp with h1
    rw [← h1] at ht
    simp at ht
  have hbeq : (t == "") = false := by
    rw [beq_eq_false_iff_ne]
    exact hne
  have hfilter : d.filter (entryMatches tm m pq) = [] := by
    rw [List.filter_eq_nil_iff]
    intro e _
    have hm : entryMatches tm m pq e = false := by
      simp only [entryMatches, hfreq, ht]
      cases htag : pq.tagOnlySearch
      · simp [freqFalsy, truthyTagFilter, hbeq, tagCheck_unknown tm t e hu]
      · simp [tagCheck_unknown tm t e hu]
    simp [hm]
  unfold searchStep
  rw [if_neg hq]
  simp only [hmiss, hp]
  unfold computeResponse
  rw [hfilter]
  rfl

/-- Witness for `c4_unknown_tag_empty`: the unknown tag query `"#xyz"`
against a store whose only entry is tagged and a resolver that only knows
`"noun"`. -/
theorem c4_witness :
    (searchStep [entryCat] [("noun", 1)] [] "#xyz" none).out = .ok ⟨0, []⟩ :=
  c4_unknown_tag_empty [entryCat] [("noun", 1)] [] "#xyz" none
    ⟨"#xyz", some "xyz", none, true⟩ "xyz" (by decide) (by decide) (by decide)
    (by decide) (by decide)

/-! ## Claim C6 -/

/-- Claim C6, counterexample: an entry lacking a frequency rank coerces to
rank `0`, not to the minimum — it ties with a genuine rank-`0` entry and, the
sort being stable, stays **before** it, so it does not appear after all
entries that have a rank. -/
theorem c6_counterexample :
    (searchStep [entryNoRank, entryRankZero] [] [] "a" (some "any")).out
      = .ok ⟨2, [entryNoRank, entryRankZero]⟩
    ∧ entryNoRank.o = none ∧ entryRankZero.o = some 0 := by decide

/-- Claim C6 (amended): every successful freshly-computed search response is
ordered by descending coerced frequency rank, where an entry lacking a rank
coerces to `0` (`parseInt(o) || 0`) — it therefore appears after entries with
positive ranks but not necessarily after entries with rank zero or below. -/
theorem c6_amended_sorted_by_coerced_rank (d : List Entry)
    (tm : List (String × Int)) (st : List (String × Response)) (q : String)
    (m : Option String) (r : Response)
    (hmiss : lookupC st (getCacheKey q m) = none)
    (h : (searchStep d tm st q m).out = .ok r) :
    r.results.Pairwise (fun a b => freqKey b ≤ freqKey a) := by
  by_cases hq : q = ""
  · subst hq
    unfold searchStep at h
    simp at h
  · unfold searchStep at h
    rw [if_neg hq] at h
    simp only [hmiss] at h
    cases hp : parseQuery q with
    | error msg =>
      rw [hp] at h
      simp at h
    | ok pq =>
      rw [hp] at h
      simp only [] at h
      have hr : r = computeResponse d tm m pq := by
        have : SearchOut.ok (computeResponse d tm m pq) = SearchOut.ok r := h
        injection this with h1
        exact h1.symm
      rw [hr]
      unfold computeResponse
      exact sortByDesc_pairwise freqKey _

/-- Witness for `c6_amended_sorted_by_coerced_rank` on the two-entry store
of the counterexample. -/
theorem c6_witness :
    (Response.mk 2 [entryNoRank, entryRankZero]).results.Pairwise
      (fun a b => freqKey b ≤ freqKey a) :=
  c6_amended_sorted_by_coerced_rank [entryNoRank, entryRankZero] [] [] "a"
    (some "any") ⟨2, [entryNoRank, entryRankZero]⟩ (by decide) (by decide)

/-! ## Claim C7 -/

/-- Claim C7, counterexample: in mode `both` the search term `"a,b,c"` — which
does not contain exactly one comma — still matches the entry
`(term "a", reading "b")`: JS destructuring takes the first two segments and
ignores the rest. -/
theorem c7_counterexample :
    (searchStep [entryAB] [] [] "a,b,c" (some "both")).out = .ok ⟨1, [entryAB]⟩
    ∧ (jsSplitOnStr "a,b,c" ',' []).length ≠ 2 := by decide

/-- Claim C7 (amended): in mode `both`, for a plain term query (no tag or
frequency filter), an entry matches iff its term equals the first
comma-separated segment of the search term and its reading equals the second
segment, later segments being ignored; a search term with no comma has no
second segment, so no entry matches — a defined empty match against an
absent value, not a crash. -/
theorem c7_amended_both_segments (d : List Entry) (tm : List (String × Int))
    (st : List (String × Response)) (q : String) (r : Response)
    (pq : ParsedQuery)
    (hp : parseQuery q = .ok pq)
    (ht : pq.tagFilter = none) (hf : pq.frequencyFilter = none)
    (hto : pq.tagOnlySearch = false)
    (hmiss : lookupC st (getCacheKey q (some "both")) = none)
    (h : (searchStep d tm st q (some "both")).out = .ok r) :
    (∀ e : Entry, e ∈ r.results ↔
      e ∈ d ∧ e.t = (jsSplitOnStr pq.searchTerm ',' []).headD ""
        ∧ (jsSplitOnStr pq.searchTerm ',' []).get? 1 = some e.r)
    ∧ ((jsSplitOnStr pq.searchTerm ',' []).length = 1 → r.results = []) := by
  by_cases hq : q = ""
  · subst hq
    unfold searchStep at h
    simp at h
  · unfold searchStep at h
    rw [if_neg hq] at h
    simp only [hmiss, hp] at h
    have hr : r = computeResponse d tm (some "both") pq := by
      have : SearchOut.ok (computeResponse d tm (some "both") pq)
          = SearchOut.ok r := h
      injection this with h1
      exact h1.symm
    subst hr
    have hmem : ∀ e : Entry,
        e ∈ (computeResponse d tm (some "both") pq).results ↔
          e ∈ d ∧ entryMatches tm (some "both") pq e = true := by
      intro e
      unfold computeResponse
      rw [mem_sortByDesc]
      simp [List.mem_filter]
    have hmatch : ∀ e : Entry,
        entryMatches tm (some "both") pq e = true ↔
          (e.t = (jsSplitOnStr pq.searchTerm ',' []).headD ""
            ∧ (jsSplitOnStr pq.searchTerm ',' []).get? 1 = some e.r) := by
      intro e
      simp [entryMatches, ht, hf, hto, truthyTagFilter, readingMatches_iff]
    constructor
    · intro e
      rw [hmem e, hmatch e]
    · intro hlen
      have hnone : (jsSplitOnStr pq.searchTerm ',' []).get? 1 = none := by
        rw [List.get?_eq_none]
        omega
      rw [List.eq_nil_iff_forall_not_mem]
      intro e he
      rw [hmem e, hmatch e] at he
      rw [hnone] at he
      exact Option.noConfusion he.2.2

/-- Witness for `c7_amended_both_segments` on the query `"a,b"` in mode
`both`. -/
theorem c7_witness :
    (entryAB ∈ (Response.mk 1 [entryAB]).results ↔
      entryAB ∈ [entryAB]
        ∧ entryAB.t = (jsSplitOnStr "a,b" ',' []).headD ""
        ∧ (jsSplitOnStr "a,b" ',' []).get? 1 = some entryAB.r) :=
  (c7_amended_both_segments [entryAB] [] [] "a,b" ⟨1, [entryAB]⟩
    ⟨"a,b", none, none, false⟩ (by decide) (by decide) (by decide) (by decide)
    (by decide) (by decide)).1 entryAB

/-! ## Claim C8 -/

theorem lookupC_setC_self (c : List (String × Response)) (k : String)
    (r : Response) : lookupC (setC c k r) k = some r := by
  induction c with
  | nil => simp [setC, lookupC]
  | cons p rest ih =>
    obtain ⟨k2, r2⟩ := p
    by_cases hk : (k2 == k) = true
    · simp [setC, lookupC, hk]
    · simp [setC, lookupC, hk, ih]

/-- Claim C8, counterexample: error responses are never cached — two
sequential calls with the invalid-frequency query `"#frqx"` return the
structurally identical error, but the second is **not** served from the cache
(the cache stays empty and the request is reprocessed). -/
theorem c8_counterexample :
    (searchStep [] [] [] "#frqx" none).out = .err "Invalid frequency value"
    ∧ (searchStep [] [] (searchStep [] [] [] "#frqx" none).cache
        "#frqx" none).out = (searchStep [] [] [] "#frqx" none).out
    ∧ (searchStep [] [] (searchStep [] [] [] "#frqx" none).cache
        "#frqx" none).hit = false := by decide

/-- Claim C8 (amended): the cache key is the raw query, `"_"`, and the mode
(absent or empty mode becoming `"default"`); for every `(rawQuery, mode)`
pair whose first call produces a successful response, the second sequential
call returns the structurally identical response served from the cache,
without re-running matching or grouping.  Queries rejected with an error
(missing query, invalid frequency) return identical errors on both calls but
are recomputed, not served from the cache. -/
theorem c8_amended_cache_hit (d : List Entry) (tm : List (String × Int))
    (c : List (String × Response)) (q : String) (m : Option String)
    (r : Response)
    (h : (searchStep d tm c q m).out = .ok r) :
    getCacheKey q m = q ++ "_" ++ modeOrDefault m
    ∧ (searchStep d tm (searchStep d tm c q m).cache q m).out = .ok r
    ∧ (searchStep d tm (searchStep d tm c q m).cache q m).hit = true
    ∧ (searchStep d tm (searchStep d tm c q m).cache q m).ran = false := by
  refine ⟨by cases m <;> rfl, ?_⟩
  by_cases hq : q = ""
  · subst hq
    unfold searchStep at h
    simp at h
  · cases hl : lookupC c (getCacheKey q m) with
    | some r0 =>
      have hout : (searchStep d tm c q m).out = .ok r0 := by
        unfold searchStep
        rw [if_neg hq, hl]
      have hr0 : r0 = r := by
        rw [hout] at h
        injection h
      subst hr0
      have hcache : (searchStep d tm c q m).cache = c := by
        unfold searchStep
        rw [if_neg hq, hl]
      rw [hcache]
      unfold searchStep
      rw [if_neg hq, hl]
      exact ⟨rfl, rfl, rfl⟩
    | none =>
      cases hp : parseQuery q with
      | error msg =>
        have hout : (searchStep d tm c q m).out = .err msg := by
          unfold searchStep
          rw [if_neg hq, hl, hp]
        rw [hout] at h
        exact absurd h (by simp)
      | ok pq =>
        have hout : (searchStep d tm c q m).out
            = .ok (computeResponse d tm m pq) := by
          unfold searchStep
          rw [if_neg hq, hl, hp]
        have hr : computeResponse d tm m pq = r := by
          rw [hout] at h
          injection h
        have hcache : (searchStep d tm c q m).cache
            = setC c (getCacheKey q m) (computeResponse d tm m pq) := by
          unfold searchStep
          rw [if_neg hq, hl, hp]
        rw [hcache]
        unfold searchStep
        rw [if_neg hq, lookupC_setC_self, hr]
        exact ⟨rfl, rfl, rfl⟩

/-- Witness for `c8_amended_cache_hit` on the plain query `"x"` with no
mode. -/
theorem c8_witness :
    (searchStep [] [] (searchStep [] [] [] "x" none).cache "x" none).out
      = .ok ⟨0, []⟩ :=
  (c8_amended_cache_hit [] [] [] "x" none ⟨0, []⟩ (by decide)).2.1

/-! ## Claim C10 -/

/-- Claim C10: a query of the form `" #T"` (leading space, `#`, a resolvable
tag symbol `T`) passes the non-empty check and parses to an empty search term
with tag filter `T`; in mode `any` the empty search term matches every entry
on the term axis (the substring test with the empty needle always succeeds),
so the response equals that of the tag-only search `"#T"`. -/
theorem c10_empty_term_equals_tag_only (d : List Entry)
    (tm : List (String × Int)) (st1 st2 : List (String × Response))
    (q1 q2 : String) (m2 : Option String) (t : String) (i : Int)
    (h1 : parseQuery q1 = .ok ⟨"", some t, none, false⟩)
    (h2 : parseQuery q2 = .ok ⟨q2, some t, none, true⟩)
    (_ht : lookupTag tm t = some i) (hne : ¬ t = "")
    (hm1 : lookupC st1 (getCacheKey q1 (some "any")) = none)
    (hm2 : lookupC st2 (getCacheKey q2 m2) = none) :
    (searchStep d tm st1 q1 (some "any")).out = (searchStep d tm st2 q2 m2).out
    ∧ (∀ s : String, strIncludes s "" = true) := by
  have hq1 : ¬ q1 = "" := by
    intro hq
    subst hq
    have h0 : parseQuery "" = .ok ⟨"", none, none, false⟩ := by decide
    rw [h0] at h1
    simp at h1
  have hq2 : ¬ q2 = "" := by
    intro hq
    subst hq
    have h0 : parseQuery "" = .ok ⟨"", none, none, false⟩ := by decide
    rw [h0] at h2
    simp at h2
  have hbeq : (t == "") = false := by
    rw [beq_eq_false_iff_ne]
    exact hne
  have hfe : ∀ e ∈ d,
      entryMatches tm (some "any") ⟨"", some t, none, false⟩ e
        = entryMatches tm m2 ⟨q2, some t, none, true⟩ e := by
    intro e _
    simp only [entryMatches]
    simp [freqFalsy, truthyTagFilter, hbeq, strIncludes_empty]
  have hcomp : computeResponse d tm (some "any") ⟨"", some t, none, false⟩
      = computeResponse d tm m2 ⟨q2, some t, none, true⟩ := by
    unfold computeResponse
    rw [List.filter_congr hfe]
  constructor
  · have o1 : (searchStep d tm st1 q1 (some "any")).out
        = .ok (computeResponse d tm (some "any") ⟨"", some t, none, false⟩) := by
      unfold searchStep
      rw [if_neg hq1, hm1, h1]
    have o2 : (searchStep d tm st2 q2 m2).out
        = .ok (computeResponse d tm m2 ⟨q2, some t, none, true⟩) := by
      unfold searchStep
      rw [if_neg hq2, hm2, h2]
    rw [o1, o2, hcomp]
  · exact strIncludes_empty

/-- Witness for `c10_empty_term_equals_tag_only`: `" #noun"` in mode `any`
against `"#noun"` with no mode. -/
theorem c10_witness :
    (searchStep [entryCat] [("noun", 1)] [] " #noun" (some "any")).out
      = (searchStep [entryCat] [("noun", 1)] [] "#noun" none).out :=
  (c10_empty_term_equals_tag_only [entryCat] [("noun", 1)] [] [] " #noun"
    "#noun" none "noun" 1 (by decide) (by decide) (by decide) (by decide)
    (by decide) (by decide)).1

/-! ## Grouping lemmas (claim C2) -/

theorem gKey_pushM (ms : List String) (g : GroupedResult) :
    gKey (pushM ms g) = gKey g := rfl

theorem pushM_pushM (a b : List String) (g : GroupedResult) :
    pushM b (pushM a g) = pushM (a ++ b) g := by
  simp [pushM, List.append_assoc]

theorem updG_keys (k : String) (ms : List String)
    (acc : List (String × GroupedResult)) :
    (updG k ms acc).map Prod.fst = acc.map Prod.fst := by
  induction acc with
  | nil => rfl
  | cons p rest ih =>
    obtain ⟨k2, g⟩ := p
    by_cases h : (k2 == k) = true
    · simp [updG, h]
    · simp [updG, h, ih]

theorem hasKey_map (k : String) (acc : List (String × GroupedResult)) :
    hasKey k acc = (acc.map Prod.fst).any (fun k2 => k2 == k) := by
  induction acc with
  | nil => rfl
  | cons p rest ih =>
    simp only [hasKey] at ih ⊢
    simp only [List.any_cons, List.map_cons]
    rw [ih]

theorem hasKey_isSome (k : String) (acc : List (String × GroupedResult)) :
    hasKey k acc = (findG k acc).isSome := by
  induction acc with
  | nil => rfl
  | cons p rest ih =>
    obtain ⟨k2, g⟩ := p
    simp only [hasKey] at ih ⊢
    by_cases h : (k2 == k) = true
    · simp [findG, List.any_cons, h]
    · simp [findG, List.any_cons, h, ih]

theorem findG_updG_self (k : String) (ms : List String)
    (acc : List (String × GroupedResult)) (g : GroupedResult)
    (h : findG k acc = some g) :
    findG k (updG k ms acc) = some (pushM ms g) := by
  induction acc with
  | nil => simp [findG] at h
  | cons p rest ih =>
    obtain ⟨k2, g2⟩ := p
    by_cases hk : (k2 == k) = true
    · rw [findG, if_pos hk] at h
      injection h with h2
      subst h2
      simp [updG, findG, hk]
    · rw [findG, if_neg hk] at h
      simp [updG, findG, hk, ih h]

theorem findG_updG_ne (k k2 : String) (ms : List String)
    (acc : List (String × GroupedResult)) (hk : (k2 == k) = false) :
    findG k (updG k2 ms acc) = findG k acc := by
  induction acc with
  | nil => rfl
  | cons p rest ih =>
    obtain ⟨k3, g3⟩ := p
    by_cases h3 : (k3 == k2) = true
    · have h3k : (k3 == k) = false := by
        have := eq_of_beq h3
        subst this
        exact hk
      simp [updG, findG, h3, h3k]
    · by_cases h3k : (k3 == k) = true
      · simp [updG, findG, h3, h3k]
      · simp [updG, findG, h3, h3k, ih]

theorem findG_append_new (k : String) (acc : List (String × GroupedResult))
    (g0 : GroupedResult) (h : findG k acc = none) :
    findG k (acc ++ [(k, g0)]) = some g0 := by
  induction acc with
  | nil => simp [findG]
  | cons p rest ih =>
    obtain ⟨k2, g2⟩ := p
    by_cases hk : (k2 == k) = true
    · rw [findG, if_pos hk] at h
      exact Option.noConfusion h
    · rw [findG, if_neg hk] at h
      simp only [List.cons_append, findG, if_neg hk]
      exact ih h

theorem findG_append_ne (k k2 : String)
    (acc : List (String × GroupedResult)) (g0 : GroupedResult)
    (hk : (k2 == k) = false) :
    findG k (acc ++ [(k2, g0)]) = findG k acc := by
  induction acc with
  | nil => simp [findG, hk]
  | cons p rest ih =>
    obtain ⟨k3, g3⟩ := p
    by_cases h3 : (k3 == k) = true
    · simp [findG, h3]
    · simp only [List.cons_append, findG, if_neg h3]
      exact ih

theorem pushM_nil (g : GroupedResult) : pushM [] g = g := by
  simp [pushM]

theorem catMeanings_cons (e : TermEntry) (l : List TermEntry) :
    catMeanings (e :: l) = e.meanings ++ catMeanings l := rfl

theorem findG_foldl (td : List (String × String)) (fd : List FuriEntry)
    (l : List TermEntry) (acc : List (String × GroupedResult)) (k : String) :
    findG k (l.foldl (stepG td fd) acc) = groupSpec td fd l k (findG k acc) := by
  induction l generalizing acc with
  | nil =>
    simp only [List.foldl_nil]
    cases hf : findG k acc with
    | none => simp [groupSpec]
    | some g => simp [groupSpec, catMeanings, pushM_nil]
  | cons e rest ih =>
    rw [List.foldl_cons, ih]
    cases hbeq : (groupKey e == k) with
    | true =>
      have heq : groupKey e = k := eq_of_beq hbeq
      cases hf : findG k acc with
      | some g =>
        have hhk : hasKey (groupKey e) acc = true := by
          rw [hasKey_isSome, heq, hf]
          rfl
        have hstep : findG k (stepG td fd acc e) = some (pushM e.meanings g) := by
          unfold stepG
          rw [if_pos hhk, heq]
          exact findG_updG_self k e.meanings acc g hf
        rw [hstep]
        simp only [groupSpec, List.filter_cons, hbeq, if_true, catMeanings_cons]
        rw [pushM_pushM]
      | none =>
        have hhk : hasKey (groupKey e) acc = false := by
          rw [hasKey_isSome, heq, hf]
          rfl
        have hstep : findG k (stepG td fd acc e)
            = some (pushM e.meanings (initGroup td fd e)) := by
          unfold stepG
          rw [if_neg (by rw [hhk]; exact Bool.false_ne_true), heq]
          exact findG_append_new k acc _ hf
        rw [hstep]
        have hfind : List.find? (fun e2 => groupKey e2 == k) (e :: rest)
            = some e := List.find?_cons_of_pos rest hbeq
        simp only [groupSpec, List.filter_cons, hbeq, if_true, hfind,
          catMeanings_cons]
        rw [pushM_pushM]
    | false =>
      have hstep : findG k (stepG td fd acc e) = findG k acc := by
        unfold stepG
        by_cases hhk : hasKey (groupKey e) acc = true
        · rw [if_pos hhk]
          exact findG_updG_ne k (groupKey e) e.meanings acc hbeq
        · rw [if_neg hhk]
          exact findG_append_ne k (groupKey e) acc _ hbeq
      rw [hstep]
      have hfind : List.find? (fun e2 => groupKey e2 == k) (e :: rest)
          = List.find? (fun e2 => groupKey e2 == k) rest :=
        List.find?_cons_of_neg rest (by rw [hbeq]; exact Bool.false_ne_true)
      cases hf : findG k acc with
      | some g =>
        simp only [groupSpec, List.filter_cons, hbeq]
        simp
      | none =>
        simp only [groupSpec, List.filter_cons, hbeq, hfind]
        simp

theorem stepG_keys (td : List (String × String)) (fd : List FuriEntry)
    (acc : List (String × GroupedResult)) (e : TermEntry) :
    (stepG td fd acc e).map Prod.fst
      = (if (acc.map Prod.fst).any (fun k2 => k2 == groupKey e)
         then acc.map Prod.fst
         else acc.map Prod.fst ++ [groupKey e]) := by
  unfold stepG
  rw [← hasKey_map]
  by_cases hhk : hasKey (groupKey e) acc = true
  · rw [if_pos hhk, if_pos hhk, updG_keys]
  · rw [if_neg hhk, if_neg hhk]
    simp

theorem groupPairs_keys_aux (td : List (String × String)) (fd : List FuriEntry)
    (l : List TermEntry) (acc : List (String × GroupedResult)) :
    (l.foldl (stepG td fd) acc).map Prod.fst
      = l.foldl
          (fun ks e => if ks.any (fun k2 => k2 == groupKey e) then ks
            else ks ++ [groupKey e])
          (acc.map Prod.fst) := by
  induction l generalizing acc with
  | nil => rfl
  | cons e rest ih =>
    rw [List.foldl_cons, List.foldl_cons, ih, stepG_keys]

theorem groupPairs_keys (td : List (String × String)) (fd : List FuriEntry)
    (l : List TermEntry) :
    (groupPairs td fd l).map Prod.fst = keyOrder (l.map groupKey) := by
  unfold groupPairs keyOrder
  rw [List.foldl_map, groupPairs_keys_aux]
  rfl

theorem mem_updG (k : String) (ms : List String)
    (acc : List (String × GroupedResult)) (p : String × GroupedResult)
    (hp : p ∈ updG k ms acc) :
    ∃ q ∈ acc, p.1 = q.1 ∧ (p.2 = q.2 ∨ p.2 = pushM ms q.2) := by
  induction acc with
  | nil => simp [updG] at hp
  | cons q0 rest ih =>
    obtain ⟨k2, g2⟩ := q0
    by_cases h2 : (k2 == k) = true
    · rw [updG, if_pos h2] at hp
      rcases List.mem_cons.mp hp with rfl | hp2
      · exact ⟨(k2, g2), List.mem_cons_self _ _, rfl, Or.inr rfl⟩
      · exact ⟨p, List.mem_cons_of_mem _ hp2, rfl, Or.inl rfl⟩
    · rw [updG, if_neg h2] at hp
      rcases List.mem_cons.mp hp with rfl | hp2
      · exact ⟨(k2, g2), List.mem_cons_self _ _, rfl, Or.inl rfl⟩
      · obtain ⟨q, hq, hfst, hsnd⟩ := ih hp2
        exact ⟨q, List.mem_cons_of_mem _ hq, hfst, hsnd⟩

theorem groupPairs_coherent_aux (td : List (String × String))
    (fd : List FuriEntry) (l : List TermEntry)
    (acc : List (String × GroupedResult))
    (hacc : ∀ p ∈ acc, p.1 = gKey p.2) :
    ∀ p ∈ l.foldl (stepG td fd) acc, p.1 = gKey p.2 := by
  induction l generalizing acc with
  | nil => exact hacc
  | cons e rest ih =>
    rw [List.foldl_cons]
    apply ih
    intro p hp
    unfold stepG at hp
    by_cases hhk : hasKey (groupKey e) acc = true
    · rw [if_pos hhk] at hp
      obtain ⟨q, hq, hfst, hsnd⟩ := mem_updG (groupKey e) e.meanings acc p hp
      rcases hsnd with h | h
      · rw [hfst, h]
        exact hacc q hq
      · rw [hfst, h, gKey_pushM]
        exact hacc q hq
    · rw [if_neg hhk] at hp
      rcases List.mem_append.mp hp with hp2 | hp2
      · exact hacc p hp2
      · have : p = (groupKey e, pushM e.meanings (initGroup td fd e)) := by
          simpa using hp2
        rw [this]
        rfl

theorem groupPairs_coherent (td : List (String × String)) (fd : List FuriEntry)
    (l : List TermEntry) :
    ∀ p ∈ groupPairs td fd l, p.1 = gKey p.2 :=
  groupPairs_coherent_aux td fd l [] (by intro p hp; simp at hp)

theorem keyOrder_nodup_aux (ks : List String) (acc : List String)
    (h : acc.Nodup) :
    (ks.foldl (fun acc k => if acc.any (fun k2 => k2 == k) then acc
      else acc ++ [k]) acc).Nodup := by
  induction ks generalizing acc with
  | nil => exact h
  | cons k rest ih =>
    rw [List.foldl_cons]
    by_cases hk : acc.any (fun k2 => k2 == k) = true
    · rw [if_pos hk]
      exact ih acc h
    · rw [if_neg hk]
      apply ih
      have hk2 : k ∉ acc := by
        intro hmem
        exact hk (List.any_eq_true.mpr ⟨k, hmem, by simp⟩)
      exact List.Nodup.append h (List.nodup_singleton k)
        (by simp [List.disjoint_singleton]; exact hk2)

theorem keyOrder_nodup (ks : List String) : (keyOrder ks).Nodup :=
  keyOrder_nodup_aux ks [] List.nodup_nil

theorem findG_of_mem (pairs : List (String × GroupedResult))
    (hnd : (pairs.map Prod.fst).Nodup) (p : String × GroupedResult)
    (hp : p ∈ pairs) : findG p.1 pairs = some p.2 := by
  induction pairs with
  | nil => simp at hp
  | cons q rest ih =>
    rw [List.map_cons, List.nodup_cons] at hnd
    obtain ⟨hq1, hnd2⟩ := hnd
    rcases List.mem_cons.mp hp with rfl | hp2
    · rw [findG, if_pos (by simp)]
    · have hne : (q.1 == p.1) = false := by
        rw [beq_eq_false_iff_ne]
        intro hcontra
        apply hq1
        rw [hcontra]
        exact List.mem_map_of_mem Prod.fst hp2
      rw [findG, if_neg (by rw [hne]; exact Bool.false_ne_true)]
      exact ih hnd2 hp2

theorem totalPairMeanings_updG (k : String) (ms : List String)
    (acc : List (String × GroupedResult)) (h : hasKey k acc = true) :
    totalPairMeanings (updG k ms acc) = totalPairMeanings acc + ms.length := by
  induction acc with
  | nil => simp [hasKey] at h
  | cons p rest ih =>
    obtain ⟨k2, g2⟩ := p
    by_cases h2 : (k2 == k) = true
    · rw [updG, if_pos h2]
      simp [totalPairMeanings, pushM]
      omega
    · rw [updG, if_neg h2]
      have h3 : hasKey k rest = true := by
        simp only [hasKey, List.any_cons] at h
        rcases Bool.or_eq_true _ _ |>.mp h with h4 | h4
        · exact absurd h4 h2
        · exact h4
      simp only [totalPairMeanings, List.foldr_cons] at ih ⊢
      rw [ih h3]
      omega

theorem totalPairMeanings_append (acc : List (String × GroupedResult))
    (k : String) (g0 : GroupedResult) :
    totalPairMeanings (acc ++ [(k, g0)])
      = totalPairMeanings acc + g0.meanings.length := by
  induction acc with
  | nil => simp [totalPairMeanings]
  | cons p rest ih =>
    simp only [List.cons_append, totalPairMeanings, List.foldr_cons] at ih ⊢
    rw [ih]
    omega

theorem totalPairMeanings_foldl (td : List (String × String))
    (fd : List FuriEntry) (l : List TermEntry)
    (acc : List (String × GroupedResult)) :
    totalPairMeanings (l.foldl (stepG td fd) acc)
      = totalPairMeanings acc + totalMeanings l := by
  induction l generalizing acc with
  | nil => simp [totalMeanings]
  | cons e rest ih =>
    rw [List.foldl_cons, ih]
    have hstep : totalPairMeanings (stepG td fd acc e)
        = totalPairMeanings acc + e.meanings.length := by
      unfold stepG
      by_cases hhk : hasKey (groupKey e) acc = true
      · rw [if_pos hhk]
        exact totalPairMeanings_updG (groupKey e) e.meanings acc hhk
      · rw [if_neg hhk, totalPairMeanings_append]
        simp [pushM, initGroup]
    rw [hstep]
    simp only [totalMeanings, List.foldr_cons]
    omega

theorem totalGroupedMeanings_pairs (pairs : List (String × GroupedResult)) :
    totalGroupedMeanings (pairs.map Prod.snd) = totalPairMeanings pairs := by
  induction pairs with
  | nil => rfl
  | cons p rest ih =>
    simp only [List.map_cons, totalGroupedMeanings, totalPairMeanings,
      List.foldr_cons] at ih ⊢
    rw [ih]

/-! ## Claim C2 -/

/-- Claim C2, counterexample: the grouping key is the `_`-joined string, so
the distinct pairs `("a_b", "c")` and `("a", "b_c")` collide and merge into a
single record — entries with different `(term, reading)` can share a
record. -/
theorem c2_counterexample :
    (groupEntries [] [] [tEntryCollide1, tEntryCollide2]).length = 1
    ∧ (tEntryCollide1.term, tEntryCollide1.reading)
      ≠ (tEntryCollide2.term, tEntryCollide2.reading) := by decide

/-- Claim C2 (amended): grouping produces exactly one record per distinct
`_`-joined key `term + "_" + reading`, in first-occurrence order of the keys
(entries with identical `(term, reading)` always merge, but entries with
different pairs also merge whenever their joined keys collide); each record's
meanings are the concatenation, in encounter order, of the meanings of
exactly the entries with that key, and the total meanings count over all
records equals the total over the matched entries. -/
theorem c2_amended_grouping (td : List (String × String)) (fd : List FuriEntry)
    (l : List TermEntry) :
    (groupEntries td fd l).map gKey = keyOrder (l.map groupKey)
    ∧ (∀ g ∈ groupEntries td fd l,
        g.meanings = catMeanings (l.filter (fun e => groupKey e == gKey g)))
    ∧ totalGroupedMeanings (groupEntries td fd l) = totalMeanings l := by
  refine ⟨?_, ?_, ?_⟩
  · unfold groupEntries
    rw [List.map_map]
    have hmc : List.map (gKey ∘ Prod.snd) (groupPairs td fd l)
        = List.map Prod.fst (groupPairs td fd l) :=
      List.map_congr_left (fun p hp => (groupPairs_coherent td fd l p hp).symm)
    rw [hmc]
    exact groupPairs_keys td fd l
  · intro g hg
    unfold groupEntries at hg
    obtain ⟨p, hp, hpg⟩ := List.mem_map.mp hg
    have hkey : p.1 = gKey g := by
      rw [← hpg]
      exact groupPairs_coherent td fd l p hp
    have hnd : ((groupPairs td fd l).map Prod.fst).Nodup := by
      rw [groupPairs_keys]
      exact keyOrder_nodup _
    have hfind : findG p.1 (groupPairs td fd l) = some p.2 :=
      findG_of_mem _ hnd p hp
    rw [groupPairs] at hfind
    rw [findG_foldl td fd l [] p.1] at hfind
    simp only [groupSpec, findG] at hfind
    cases hf0 : List.find? (fun e => groupKey e == p.1) l with
    | none =>
      rw [hf0] at hfind
      exact Option.noConfusion hfind
    | some e0 =>
      rw [hf0] at hfind
      injection hfind with hfind2
      have : g.meanings
          = catMeanings (l.filter (fun e => groupKey e == p.1)) := by
        rw [← hpg, ← hfind2]
        simp [pushM, initGroup]
      rw [← hkey]
      exact this
  · unfold groupEntries
    rw [totalGroupedMeanings_pairs]
    unfold groupPairs
    rw [totalPairMeanings_foldl]
    simp [totalPairMeanings]

/-- Witness for `c2_amended_grouping` on the colliding two-entry sequence:
the single merged record carries the concatenated meanings of both
entries. -/
theorem c2_witness :
    (groupEntries [] [] [tEntryCollide1, tEntryCollide2]).map gKey
      = keyOrder ([tEntryCollide1, tEntryCollide2].map groupKey)
    ∧ (GroupedResult.mk "a_b" "c" ["m1", "m2"] none [] (some 1)).meanings
      = catMeanings ([tEntryCollide1, tEntryCollide2].filter
          (fun e => groupKey e
            == gKey (GroupedResult.mk "a_b" "c" ["m1", "m2"] none [] (some 1)))) :=
  ⟨(c2_amended_grouping [] [] [tEntryCollide1, tEntryCollide2]).1,
   (c2_amended_grouping [] [] [tEntryCollide1, tEntryCollide2]).2.1 _ (by decide)⟩

end JmDict
